import Mathlib

/-!
Verification of the taal-finder classification core
(`src/taal_finder/taal.py`, `src/taal_finder/taals/definitions.py`,
`src/taal_finder/models.py`, `src/taal_finder/beats.py`).

The Python code is shallowly embedded:
* beat times, onset strengths, tempos and accent weights are modelled as
  exact rationals (the float computations carry exact decimal constants);
* the cosine-similarity step (`np.linalg.norm` uses a square root) is
  modelled over the reals;
* numpy operations that raise (`np.zeros` of a negative size, indexed
  assignment out of range) are modelled with `Option`, `none` standing for
  the raised exception;
* `sorted(..., reverse=True)` (a stable descending sort) is modelled by a
  stable insertion sort, and `np.median` by sorting and taking the middle.
-/

namespace TaalFinder

/-- The members of `TaalName` in `models.py`. -/
inductive TaalName where
  | dadra
  | rupak
  | keherwa
  | jhaptaal
  | ektaal
  | deepchandi
  | teentaal
deriving DecidableEq

/-- Structure `TaalDefinition` from `models.py` (the `common_layas` / `hindi_name`
fields play no role in the classification logic and carry plain strings). -/
structure TaalDefinition where
  name : TaalName
  matras : ℕ
  vibhags : List ℕ
  sam_position : ℕ
  khali_positions : List ℕ
  tali_positions : List ℕ
  common_layas : List String
  hindi_name : String
deriving DecidableEq

/-- The `vibhag_boundaries` property: cumulative starting positions,
`boundaries = [0]`, then one more entry per element of `vibhags[:-1]`. -/
def vibhagBoundariesAux : ℕ → List ℕ → List ℕ
  | _, [] => []
  | last, v :: vs => (last + v) :: vibhagBoundariesAux (last + v) vs

def vibhagBoundaries (vs : List ℕ) : List ℕ :=
  0 :: vibhagBoundariesAux 0 vs.dropLast

/-- Entry `TAAL_REGISTRY[TaalName.DADRA]` from `taals/definitions.py`. -/
def dadraDef : TaalDefinition :=
  { name := .dadra, matras := 6, vibhags := [3, 3], sam_position := 0,
    khali_positions := [3], tali_positions := [0],
    common_layas := ["madhya", "drut"], hindi_name := "ताल दादरा" }

/-- Entry `TAAL_REGISTRY[TaalName.RUPAK]`: sam IS khali (documented special case). -/
def rupakDef : TaalDefinition :=
  { name := .rupak, matras := 7, vibhags := [3, 2, 2], sam_position := 0,
    khali_positions := [0], tali_positions := [3, 5],
    common_layas := ["madhya", "drut"], hindi_name := "ताल रूपक" }

/-- Entry `TAAL_REGISTRY[TaalName.KEHERWA]`. -/
def keherwaDef : TaalDefinition :=
  { name := .keherwa, matras := 8, vibhags := [4, 4], sam_position := 0,
    khali_positions := [4], tali_positions := [0],
    common_layas := ["madhya", "drut"], hindi_name := "ताल कहरवा" }

/-- Entry `TAAL_REGISTRY[TaalName.JHAPTAAL]`. -/
def jhaptaalDef : TaalDefinition :=
  { name := .jhaptaal, matras := 10, vibhags := [2, 3, 2, 3], sam_position := 0,
    khali_positions := [5], tali_positions := [0, 2, 7],
    common_layas := ["vilambit", "madhya", "drut"], hindi_name := "ताल झपताल" }

/-- Entry `TAAL_REGISTRY[TaalName.EKTAAL]`. -/
def ektaalDef : TaalDefinition :=
  { name := .ektaal, matras := 12, vibhags := [2, 2, 2, 2, 2, 2], sam_position := 0,
    khali_positions := [2, 8], tali_positions := [0, 4, 6, 10],
    common_layas := ["vilambit", "madhya", "drut"], hindi_name := "ताल एकताल" }

/-- Entry `TAAL_REGISTRY[TaalName.DEEPCHANDI]`. -/
def deepchandiDef : TaalDefinition :=
  { name := .deepchandi, matras := 14, vibhags := [3, 4, 3, 4], sam_position := 0,
    khali_positions := [7], tali_positions := [0, 3, 10],
    common_layas := ["vilambit", "madhya"], hindi_name := "ताल दीपचंदी" }

/-- Entry `TAAL_REGISTRY[TaalName.TEENTAAL]`. -/
def teentaalDef : TaalDefinition :=
  { name := .teentaal, matras := 16, vibhags := [4, 4, 4, 4], sam_position := 0,
    khali_positions := [8], tali_positions := [0, 4, 12],
    common_layas := ["vilambit", "madhya", "drut"], hindi_name := "ताल तीनताल" }

/-- The list `TAAL_REGISTRY.values()` in Python dict insertion order. -/
def TAAL_REGISTRY : List TaalDefinition :=
  [dadraDef, rupakDef, keherwaDef, jhaptaalDef, ektaalDef, deepchandiDef, teentaalDef]

/-- Lookup `TAAL_REGISTRY[name]`: the dict lookup (total, the dict covers every name). -/
def taalDef : TaalName → TaalDefinition
  | .dadra => dadraDef
  | .rupak => rupakDef
  | .keherwa => keherwaDef
  | .jhaptaal => jhaptaalDef
  | .ektaal => ektaalDef
  | .deepchandi => deepchandiDef
  | .teentaal => teentaalDef

/-- Function `get_taals_by_matras` from `taals/definitions.py`
(the cycle length is a Python `int`, hence `ℤ`). -/
def getTaalsByMatras (matras : ℤ) : List TaalDefinition :=
  TAAL_REGISTRY.filter (fun t => (t.matras : ℤ) = matras)

/-! ## `estimate_cycle_length` (`taal.py` lines 20-54)

The estimator only reads the integer `beat_position` column of the downbeat
array, so it is embedded over the projected column `List ℕ`. -/

/-- The scan loop of `estimate_cycle_length`: arguments are the previous
position, the running maximum and the remaining positions; returns the
recorded cycle lengths and the final running maximum. -/
def cycleScan (prev currentMax : ℕ) : List ℕ → List ℕ × ℕ
  | [] => ([], currentMax)
  | x :: xs =>
    if x ≤ prev then
      let r := cycleScan x x xs
      ((currentMax + 1) :: r.1, r.2)
    else
      cycleScan x (max currentMax x) xs

/-- Model of `Counter(cycle_lengths).most_common(1)[0][0]`: the most frequent value,
ties broken by first occurrence (`Counter` iterates in insertion order and
`most_common` sorts stably by count). -/
def mostCommon (l : List ℕ) : ℕ :=
  l.foldl (fun best x => if l.count best < l.count x then x else best) (l.headD 0)

/-- Function `estimate_cycle_length` from `taal.py`. -/
def estimateCycleLength (positions : List ℕ) : ℕ :=
  match positions with
  | [] => 0
  | p :: rest =>
    let r := cycleScan p 0 rest
    let lengths := if 0 < r.2 then r.1 ++ [r.2 + 1] else r.1
    if lengths = [] then positions.foldl max 0 + 1
    else mostCommon lengths

/-! ## `_build_expected_accent_pattern` (`taal.py` lines 57-86)

`pattern[pos] = v` on a numpy array of length `cl` succeeds exactly when
`pos < cl` (the positions here are non-negative); the unguarded assignment
`pattern[taal_def.sam_position] = 1.0` is therefore embedded with `Option`,
while the `tali`/`khali`/boundary loops test `pos < cycle_length` in the
source itself. -/

/-- One guarded assignment loop of the builder: `pattern[pos] = v` for each
`pos` in `positions` with `pos < cl`. -/
def setAll (v : ℚ) (cl : ℕ) (positions : List ℕ) (p : List ℚ) : List ℚ :=
  positions.foldl (fun p pos => if pos < cl then p.set pos v else p) p

/-- The vibhag-boundary loop: raise `pattern[b]` to `0.65` when `b` is in
range and `pattern[b]` still equals the baseline `0.5`. -/
def emphasizeBoundaries (cl : ℕ) (bs : List ℕ) (p : List ℚ) : List ℚ :=
  bs.foldl (fun p b => if b < cl ∧ p.getD b 0 = 1/2 then p.set b (13/20) else p) p

/-- Function `_build_expected_accent_pattern`: baseline `0.5`, sam `1.0` (unguarded
numpy assignment, `none` models the `IndexError` when `sam_position ≥
cycle_length`), tali `0.8`, khali `0.2`, then vibhag boundaries `0.65`. -/
def buildExpectedAccentPattern (name : TaalName) (cl : ℕ) : Option (List ℚ) :=
  let td := taalDef name
  let base := List.replicate cl (1/2 : ℚ)
  if td.sam_position < cl then
    let p1 := base.set td.sam_position 1
    let p2 := setAll (4/5) cl td.tali_positions p1
    let p3 := setAll (1/5) cl td.khali_positions p2
    some (emphasizeBoundaries cl (vibhagBoundaries td.vibhags) p3)
  else none

/-! ## `_average_cyclic_pattern` (`taal.py` lines 123-138)

The Python cycle length is an `int`, so the embedding takes `ℤ`;
`np.zeros(n)` raises `ValueError` for `n < 0`, modelled as `none`.
`reshape(n_full_cycles, cycle_length)` followed by `np.mean(..., axis=0)`
yields, at position `j`, the mean of `strengths[i*cl + j]` over the full
cycles `i`. -/

def averageCyclicPatternZ (s : List ℚ) (cl : ℤ) : Option (List ℚ) :=
  if s.length = 0 ∨ cl ≤ 0 then
    if cl < 0 then none else some (List.replicate cl.toNat 0)
  else
    let cln := cl.toNat
    let nFull := s.length / cln
    if nFull = 0 then some (s ++ List.replicate (cln - s.length) 0)
    else some ((List.range cln).map fun j =>
      ((List.range nFull).map fun i => s.getD (i * cln + j) 0).sum / (nFull : ℚ))

/-! ## Tempo estimation (`beats.py` lines 75-88) -/

/-- Ascending insertion used to model the sort inside `np.median`. -/
def insertAsc (x : ℚ) : List ℚ → List ℚ
  | [] => [x]
  | y :: ys => if x ≤ y then x :: y :: ys else y :: insertAsc x ys

/-- Ascending sort of rationals (the sorted list of a multiset of rationals
is unique, so the sorting algorithm is irrelevant here). -/
def sortQ (l : List ℚ) : List ℚ := l.foldr insertAsc []

/-- Model of `np.median`: sort; odd length takes the middle element, even length the
mean of the two middle elements. -/
def medianQ (l : List ℚ) : ℚ :=
  let s := sortQ l
  let n := s.length
  if n = 0 then 0
  else if n % 2 = 1 then s.getD (n / 2) 0
  else (s.getD (n / 2 - 1) 0 + s.getD (n / 2) 0) / 2

/-- Function `compute_ioi`: `np.diff` of the beat times. -/
def computeIoi (beatTimes : List ℚ) : List ℚ :=
  List.zipWith (fun a b => b - a) beatTimes beatTimes.tail

/-- Function `estimate_tempo` from `beats.py`. -/
def estimateTempo (beatTimes : List ℚ) : ℚ :=
  if beatTimes.length < 2 then 0
  else
    let m := medianQ (computeIoi beatTimes)
    if m ≤ 0 then 0 else 60 / m

/-- Python's `round(x, n)` on the exact rational value. -/
def roundTo (n : ℕ) (q : ℚ) : ℚ := (round (q * 10 ^ n) : ℤ) / 10 ^ n

/-! ## Result data model (`models.py`) -/

/-- Structure `BeatInfo` from `models.py`. -/
structure BeatInfo where
  time : ℚ
  beat_position : ℕ
  is_sam : Bool
  is_khali : Bool
  strength : ℚ
deriving DecidableEq

/-- Structure `TaalDetectionResult` from `models.py`: the timing fields stay rational,
the confidences come from the real-valued cosine similarity. -/
structure TaalDetectionResult where
  taal : TaalName
  confidence : ℝ
  tempo_bpm : ℚ
  matra_duration : ℚ
  cycle_duration : ℚ
  beats : List BeatInfo
  alternative_taals : List (TaalName × ℝ)

/-! ## `_build_fallback_result` (`taal.py` lines 235-256) -/

/-- Python's `min(iterable, key=f)`: keeps the current best and replaces it
only on a strictly smaller key, so ties go to the earliest element. -/
def pythonMinBy (f : TaalDefinition → ℤ) : TaalDefinition → List TaalDefinition → TaalDefinition
  | best, [] => best
  | best, x :: xs => pythonMinBy f (if f x < f best then x else best) xs

/-- The call `min(TAAL_REGISTRY.values(), key=lambda t: abs(t.matras - cycle_length))`. -/
def closestTaal (cl : ℤ) : TaalDefinition :=
  pythonMinBy (fun t => |(t.matras : ℤ) - cl|) (TAAL_REGISTRY.headD dadraDef) TAAL_REGISTRY.tail

/-- Function `_build_fallback_result` from `taal.py`. -/
noncomputable def buildFallbackResult (beats : List ℚ) (cl : ℤ) : TaalDetectionResult :=
  let tempo := estimateTempo beats
  let closest := closestTaal cl
  let matraDuration : ℚ := if 0 < tempo then 60 / tempo else 0
  { taal := closest.name,
    confidence := (1/10 : ℝ),
    tempo_bpm := roundTo 1 tempo,
    matra_duration := roundTo 4 matraDuration,
    cycle_duration := roundTo 4 (matraDuration * (closest.matras : ℚ)),
    beats := [],
    alternative_taals := [] }

/-! ## `match_accent_pattern` (`taal.py` lines 89-120)

`_normalize` divides by `np.linalg.norm`, a square root, so this part of
the pipeline lives in `ℝ`. -/

noncomputable section

/-- Model of `np.dot` of two equal-length vectors (every use below is on two curves
of the same length `cycle_length`). -/
def dotR (a b : List ℝ) : ℝ := (List.zipWith (fun x y => x * y) a b).sum

/-- Function `_normalize` from `taal.py`: divide by the Euclidean norm, returning the
zero vector unchanged. -/
def normalizeR (v : List ℝ) : List ℝ :=
  let n := Real.sqrt ((v.map fun x => x * x).sum)
  if n = 0 then v else v.map fun x => x / n

/-- Stable descending insertion: `x` goes in front of the first element
whose confidence is `≤` its own, so earlier elements win ties exactly as in
Python's stable `sorted(..., key=lambda x: x[1], reverse=True)`. -/
def insertPairDesc (x : TaalName × ℝ) : List (TaalName × ℝ) → List (TaalName × ℝ)
  | [] => [x]
  | y :: ys => if y.2 ≤ x.2 then x :: y :: ys else y :: insertPairDesc x ys

/-- Model of `sorted(results, key=lambda x: x[1], reverse=True)`. -/
def sortPairsDesc (l : List (TaalName × ℝ)) : List (TaalName × ℝ) :=
  l.foldr insertPairDesc []

/-- The confidence the matcher computes for one candidate taal: cyclic
average of the observation, templates built at the given cycle length, both
unit-normalized, cosine similarity clamped into `[0, 1]`.  (`getD []` is
only evaluated where the `Option`s are `some`, which the matcher below
checks.) -/
def taalConfidence (obs : List ℚ) (cl : ℤ) (td : TaalDefinition) : ℝ :=
  max 0 (min 1 (dotR
    (normalizeR (((averageCyclicPatternZ obs cl).getD []).map fun q => (q : ℝ)))
    (normalizeR (((buildExpectedAccentPattern td.name cl.toNat).getD []).map fun q => (q : ℝ)))))

/-- Fail-fast effectful map used to thread the possible numpy errors of the
per-candidate loop body. -/
def listMapM (f : TaalDefinition → Option (TaalName × ℝ)) :
    List TaalDefinition → Option (List (TaalName × ℝ))
  | [] => some []
  | a :: l => do
    let b ← f a
    let bs ← listMapM f l
    pure (b :: bs)

/-- Function `match_accent_pattern` from `taal.py`: empty candidate set short-circuits
to `[]`; otherwise each candidate is scored and the list is sorted by
descending confidence. -/
def matchAccentPattern (obs : List ℚ) (cl : ℤ) : Option (List (TaalName × ℝ)) :=
  let candidates := getTaalsByMatras cl
  if candidates = [] then some []
  else do
    let results ← listMapM (fun td => do
      let expected ← buildExpectedAccentPattern td.name cl.toNat
      let avg ← averageCyclicPatternZ obs cl
      let obsNorm := normalizeR (avg.map fun q => (q : ℝ))
      let expNorm := normalizeR (expected.map fun q => (q : ℝ))
      pure (td.name, max 0 (min 1 (dotR obsNorm expNorm)))) candidates
    pure (sortPairsDesc results)

/-! ## `_try_nearby_cycle_lengths` (`taal.py` lines 220-232) -/

/-- The offset loop of `_try_nearby_cycle_lengths`: visit the offsets in
order, skip non-positive candidate lengths, penalize each confidence by the
factor `0.8`, and concatenate. -/
def collectNearby (obs : List ℚ) (cl : ℤ) : List ℤ → Option (List (TaalName × ℝ))
  | [] => some []
  | o :: os =>
    if 0 < cl + o then do
      let r ← matchAccentPattern obs (cl + o)
      let rest ← collectNearby obs cl os
      pure (r.map (fun p => (p.1, p.2 * (4/5 : ℝ))) ++ rest)
    else collectNearby obs cl os

/-- Function `_try_nearby_cycle_lengths` from `taal.py`. -/
def tryNearbyCycleLengths (obs : List ℚ) (cl : ℤ) : Option (List (TaalName × ℝ)) :=
  (collectNearby obs cl [-1, 1, -2, 2]).map sortPairsDesc

/-- The value of the matcher when it does not raise (it never does — see
`matchAccentPattern_eq` below). -/
def matchRankings (obs : List ℚ) (cl : ℤ) : List (TaalName × ℝ) :=
  (matchAccentPattern obs cl).getD []

/-! ## `detect_taal` (`taal.py` lines 166-217)

The external collaborators (`detect_beats`, `detect_downbeats`,
`extract_accent_pattern`) are out of scope; the pipeline is embedded from
the point where their outputs — beat times, the downbeat `beat_position`
column, and per-beat strengths — are already materialized. -/

/-- Function `_build_beat_infos` from `taal.py` lines 259-277. -/
def buildBeatInfos (beats : List ℚ) (strengths : List ℚ) (td : TaalDefinition) :
    List BeatInfo :=
  (List.range beats.length).map fun i =>
    let pos := i % td.matras
    { time := roundTo 4 (beats.getD i 0),
      beat_position := pos,
      is_sam := pos = td.sam_position,
      is_khali := td.khali_positions.contains pos,
      strength := if i < strengths.length then roundTo 4 (strengths.getD i 0) else 0 }

/-- The ranking stage of `detect_taal`: the exact-length match, replaced by
the retry controller when it comes back empty. -/
def pipelineRankings (obs : List ℚ) (cl : ℤ) : Option (List (TaalName × ℝ)) :=
  (matchAccentPattern obs cl).bind fun r =>
    if r = [] then tryNearbyCycleLengths obs cl else some r

/-- Function `detect_taal` from the materialized collaborator outputs onward. -/
def detectTaalCore (beats : List ℚ) (positions : List ℕ) (obs : List ℚ) :
    Option TaalDetectionResult :=
  let cl : ℤ := (estimateCycleLength positions : ℤ)
  (pipelineRankings obs cl).map fun rankings =>
    match rankings with
    | [] => buildFallbackResult beats cl
    | (bestName, bestConf) :: alts =>
      let tempo := estimateTempo beats
      let td := taalDef bestName
      let matraDuration : ℚ := if 0 < tempo then 60 / tempo else 0
      { taal := bestName,
        confidence := bestConf,
        tempo_bpm := roundTo 1 tempo,
        matra_duration := roundTo 4 matraDuration,
        cycle_duration := roundTo 4 (matraDuration * (td.matras : ℚ)),
        beats := buildBeatInfos beats obs td,
        alternative_taals := alts }

end

/-! ## Helper lemmas for the cycle length estimator -/

theorem cycleScan_chain (rest : List ℕ) : ∀ p cm : ℕ, List.Chain (· < ·) p rest →
    cycleScan p cm rest = ([], rest.foldl max cm) := by
  induction rest with
  | nil => intro p cm _; rfl
  | cons x xs ih =>
    intro p cm h
    rw [List.chain_cons] at h
    simp only [cycleScan, if_neg (not_le.mpr h.1), List.foldl_cons]
    exact ih x (max cm x) h.2

theorem foldl_max_init (l : List ℕ) : ∀ a : ℕ, l.foldl max a = max a (l.foldl max 0) := by
  induction l with
  | nil => intro a; simp
  | cons x l ih =>
    intro a
    simp only [List.foldl_cons]
    rw [ih (max a x), ih (max 0 x), Nat.zero_max, Nat.max_assoc]

theorem le_foldl_max (l : List ℕ) : ∀ a : ℕ, a ≤ l.foldl max a := by
  induction l with
  | nil => intro a; exact le_refl a
  | cons x l ih =>
    intro a
    simp only [List.foldl_cons]
    exact le_trans (Nat.le_max_left a x) (ih _)

theorem mostCommon_singleton (x : ℕ) : mostCommon [x] = x := by
  simp [mostCommon]

theorem cycleScan_one_le (rest : List ℕ) : ∀ p cm : ℕ, ∀ x ∈ (cycleScan p cm rest).1, 1 ≤ x := by
  induction rest with
  | nil => intro p cm x hx; simp [cycleScan] at hx
  | cons y ys ih =>
    intro p cm x hx
    by_cases hy : y ≤ p
    · simp only [cycleScan, if_pos hy] at hx
      rcases List.mem_cons.mp hx with h | h
      · omega
      · exact ih y y x h
    · simp only [cycleScan, if_neg hy] at hx
      exact ih y (max cm y) x hx

theorem foldl_pick_mem (l : List ℕ) (t : List ℕ) (ht : ∀ x ∈ t, x ∈ l) :
    ∀ acc ∈ l, t.foldl (fun best x => if l.count best < l.count x then x else best) acc ∈ l := by
  induction t with
  | nil => intro acc hacc; exact hacc
  | cons y ys ih =>
    intro acc hacc
    simp only [List.foldl_cons]
    refine ih (fun x hx => ht x (List.mem_cons_of_mem y hx)) _ ?_
    by_cases h : l.count acc < l.count y
    · simp only [if_pos h]; exact ht y (List.mem_cons_self y ys)
    · simp only [if_neg h]; exact hacc

theorem mostCommon_mem (l : List ℕ) (h : l ≠ []) : mostCommon l ∈ l := by
  match l, h with
  | x :: xs, _ =>
    exact foldl_pick_mem (x :: xs) (x :: xs) (fun y hy => hy) x (List.mem_cons_self x xs)

theorem estimateCycleLength_no_reset (positions : List ℕ) (hne : positions ≠ [])
    (hchain : List.Chain' (· < ·) positions) :
    estimateCycleLength positions = positions.foldl max 0 + 1 := by
  match positions, hne with
  | p :: rest, _ =>
    have hch : List.Chain (· < ·) p rest := hchain
    simp only [estimateCycleLength, cycleScan_chain rest p 0 hch]
    rcases rest with _ | ⟨r, rs⟩
    · simp [mostCommon_singleton]
    · rw [List.chain_cons] at hch
      have hr : r ≤ (r :: rs).foldl max 0 := by
        simpa [Nat.zero_max] using le_foldl_max rs r
      have hcm : 0 < (r :: rs).foldl max 0 := lt_of_le_of_lt (Nat.zero_le p) (lt_of_lt_of_le hch.1 hr)
      simp only [if_pos hcm, List.nil_append]
      rw [if_neg (by simp), mostCommon_singleton]
      have hmax : (p :: r :: rs).foldl max 0 = (r :: rs).foldl max 0 := by
        have := foldl_max_init (r :: rs) p
        rw [List.foldl_cons, Nat.zero_max, this,
          Nat.max_eq_right (le_trans (le_of_lt hch.1) hr)]
      rw [hmax]

/-- Claim C5: the cycle length estimator declares a bar boundary exactly when
the current bar-relative position is `≤` the previous one, records
`previous running maximum + 1`, restarts the running maximum from the
current position, records a trailing partial bar with positive running
maximum, and takes the most frequent recorded length with ties broken by
the first-encountered value.  In particular it returns `7` on 4 repeated
cycles of positions `0..6`, `16` on 3 repeated cycles of length 16, `0` on
empty input, `2` on the tied stream `[0,1,0,1,2,0]` (lengths 2 and 3 are
recorded once each and 2 came first), and `max(position) + 1` whenever no
reset occurs. -/
theorem C5_estimate_cycle_length :
    estimateCycleLength (List.range 7 ++ List.range 7 ++ List.range 7 ++ List.range 7) = 7 ∧
    estimateCycleLength (List.range 16 ++ List.range 16 ++ List.range 16) = 16 ∧
    estimateCycleLength [] = 0 ∧
    estimateCycleLength [0, 1, 0, 1, 2, 0] = 2 ∧
    (∀ positions : List ℕ, positions ≠ [] → List.Chain' (· < ·) positions →
      estimateCycleLength positions = positions.foldl max 0 + 1) :=
  ⟨by decide, by decide, rfl, by decide, estimateCycleLength_no_reset⟩

/-- Witness for C5: the no-reset case applied to the concrete stream
`[0, 2, 5]`, whose maximum position is `5`. -/
theorem C5_witness : estimateCycleLength [0, 2, 5] = 6 := by
  have h := C5_estimate_cycle_length.2.2.2.2 [0, 2, 5] (by simp)
    (by simp [List.chain'_cons])
  simpa using h

/-- Claim C10: on every non-empty stream of non-negative bar-relative
positions the estimator returns at least `1`; the value `0` is returned
only for the empty stream. -/
theorem C10_estimator_positive :
    (∀ positions : List ℕ, positions ≠ [] → 1 ≤ estimateCycleLength positions) ∧
    estimateCycleLength [] = 0 := by
  refine ⟨?_, rfl⟩
  intro positions hne
  match positions, hne with
  | p :: rest, _ =>
    simp only [estimateCycleLength]
    set r := cycleScan p 0 rest with hr
    set lengths := if 0 < r.2 then r.1 ++ [r.2 + 1] else r.1 with hl
    by_cases hempty : lengths = []
    · rw [if_pos hempty]; omega
    · rw [if_neg hempty]
      have hmem := mostCommon_mem lengths hempty
      have hall : ∀ x ∈ lengths, 1 ≤ x := by
        intro x hx
        rw [hl] at hx
        by_cases hpos : 0 < r.2
        · rw [if_pos hpos] at hx
          rcases List.mem_append.mp hx with h | h
          · exact cycleScan_one_le rest p 0 x h
          · simp at h; omega
        · rw [if_neg hpos] at hx
          exact cycleScan_one_le rest p 0 x hx
      exact hall _ hmem

/-- Witness for C10: the singleton stream `[0]` yields `1 ≤ 1`. -/
theorem C10_witness : 1 ≤ estimateCycleLength [0] :=
  C10_estimator_positive.1 [0] (by simp)

/-! ## Helper lemmas for cyclic averaging -/

theorem averageCyclicPatternZ_pad (s : List ℚ) (cl : ℕ) (hcl : 0 < cl) (hlt : s.length < cl) :
    averageCyclicPatternZ s (cl : ℤ) = some (s ++ List.replicate (cl - s.length) 0) := by
  by_cases hs : s.length = 0
  · rw [List.length_eq_zero] at hs
    subst hs
    simp [averageCyclicPatternZ, not_lt.mpr (Int.ofNat_nonneg cl)]
  · have h1 : ¬(s.length = 0 ∨ (cl : ℤ) ≤ 0) := by
      push_neg
      exact ⟨hs, by exact_mod_cast hcl⟩
    have h2 : s.length / cl = 0 := Nat.div_eq_of_lt hlt
    simp only [averageCyclicPatternZ, if_neg h1, Int.toNat_natCast]
    rw [if_pos h2]

theorem averageCyclicPatternZ_full (s : List ℚ) (cl : ℕ) (hcl : 0 < cl) (hle : cl ≤ s.length) :
    averageCyclicPatternZ s (cl : ℤ) = some ((List.range cl).map fun j =>
      ((List.range (s.length / cl)).map fun i => s.getD (i * cl + j) 0).sum /
        ((s.length / cl : ℕ) : ℚ)) := by
  have h1 : ¬(s.length = 0 ∨ (cl : ℤ) ≤ 0) := by
    push_neg
    exact ⟨by omega, by exact_mod_cast hcl⟩
  have h2 : ¬(s.length / cl = 0) := by
    have := Nat.one_le_div_iff hcl |>.mpr hle
    omega
  simp only [averageCyclicPatternZ, if_neg h1, Int.toNat_natCast]
  rw [if_neg h2]

/-- Claim C6: cyclic averaging splits the observation into
`floor(len/cycle_length)` full cycles, takes the per-position mean across
them and discards any trailing partial cycle; with fewer than one full
cycle the sequence is zero-padded to `cycle_length` instead.  The result
always has exactly `cycle_length` entries.  Concretely, averaging
`[1,0,0,0,1,0,0,0,1,0,0,0]` at cycle length 4 gives `[1,0,0,0]`, and a
2-element input at cycle length 4 gives the two entries followed by two
zeros. -/
theorem C6_cyclic_averaging :
    averageCyclicPatternZ [1, 0, 0, 0, 1, 0, 0, 0, 1, 0, 0, 0] 4 = some [1, 0, 0, 0] ∧
    averageCyclicPatternZ [1/2, 3/10] 4 = some [1/2, 3/10, 0, 0] ∧
    (∀ (s : List ℚ) (cl : ℕ), 0 < cl →
      ∃ p, averageCyclicPatternZ s (cl : ℤ) = some p ∧ p.length = cl) ∧
    (∀ (s : List ℚ) (cl : ℕ), 0 < cl → s.length < cl →
      averageCyclicPatternZ s (cl : ℤ) = some (s ++ List.replicate (cl - s.length) 0)) ∧
    (∀ (s : List ℚ) (cl : ℕ), 0 < cl → cl ≤ s.length →
      averageCyclicPatternZ s (cl : ℤ) = some ((List.range cl).map fun j =>
        ((List.range (s.length / cl)).map fun i => s.getD (i * cl + j) 0).sum /
          ((s.length / cl : ℕ) : ℚ))) := by
  refine ⟨?_, ?_, ?_, averageCyclicPatternZ_pad, averageCyclicPatternZ_full⟩
  · have h := averageCyclicPatternZ_full [1, 0, 0, 0, 1, 0, 0, 0, 1, 0, 0, 0] 4
      (by norm_num) (by simp)
    rw [show ((4 : ℕ) : ℤ) = (4 : ℤ) by norm_num] at h
    rw [h]
    norm_num [List.range_succ]
  · have h := averageCyclicPatternZ_pad [1/2, 3/10] 4 (by norm_num) (by simp)
    rw [show ((4 : ℕ) : ℤ) = (4 : ℤ) by norm_num] at h
    rw [h]
    norm_num [List.replicate]
  · intro s cl hcl
    rcases lt_or_le s.length cl with hlt | hle
    · exact ⟨_, averageCyclicPatternZ_pad s cl hcl hlt, by
        simp [List.length_replicate]
        omega⟩
    · exact ⟨_, averageCyclicPatternZ_full s cl hcl hle, by simp⟩

/-- Witness for C6: the general clauses applied at cycle length 4 with the
two concrete observations above. -/
theorem C6_witness :
    (∃ p, averageCyclicPatternZ [1/2, 3/10] ((4 : ℕ) : ℤ) = some p ∧ p.length = 4) ∧
    averageCyclicPatternZ [1/2, 3/10] ((4 : ℕ) : ℤ) =
      some ([1/2, 3/10] ++ List.replicate (4 - 2) 0) :=
  ⟨C6_cyclic_averaging.2.2.1 [1/2, 3/10] 4 (by norm_num),
   C6_cyclic_averaging.2.2.2.1 [1/2, 3/10] 4 (by norm_num) (by simp)⟩

/-- Claim C8: a malformed (negative) cycle length handed to the cyclic
averaging routine is rejected with an error (`np.zeros` of a negative size
raises `ValueError`, embedded as `none`) rather than being silently
tolerated. -/
theorem C8_negative_cycle_rejected (s : List ℚ) (cl : ℤ) (h : cl < 0) :
    averageCyclicPatternZ s cl = none := by
  simp only [averageCyclicPatternZ]
  rw [if_pos (Or.inr (le_of_lt h)), if_pos h]

/-- Witness for C8: cycle length `-1` raises on any strength input. -/
theorem C8_witness : averageCyclicPatternZ [] (-1) = none :=
  C8_negative_cycle_rejected [] (-1) (by norm_num)

/-! ## Helper lemmas for the accent template builder -/

theorem setAll_length (v : ℚ) (cl : ℕ) (L : List ℕ) : ∀ p : List ℚ,
    (setAll v cl L p).length = p.length := by
  induction L with
  | nil => intro p; rfl
  | cons a L ih =>
    intro p
    rw [show setAll v cl (a :: L) p = setAll v cl L (if a < cl then p.set a v else p) from rfl,
      ih]
    split <;> simp

theorem setAll_getD_notmem (v : ℚ) (cl : ℕ) (L : List ℕ) : ∀ (p : List ℚ) (j : ℕ), j ∉ L →
    (setAll v cl L p).getD j 0 = p.getD j 0 := by
  induction L with
  | nil => intro p j _; rfl
  | cons a L ih =>
    intro p j hj
    rw [List.mem_cons, not_or] at hj
    rw [show setAll v cl (a :: L) p = setAll v cl L (if a < cl then p.set a v else p) from rfl,
      ih _ j hj.2]
    split
    · rw [List.getD_eq_getElem?_getD, List.getD_eq_getElem?_getD,
        List.getElem?_set_ne (fun h => hj.1 (h.symm))]
    · rfl

theorem setAll_getD_mem (v : ℚ) (cl : ℕ) (L : List ℕ) : ∀ p : List ℚ, p.length = cl →
    ∀ j ∈ L, j < cl → (setAll v cl L p).getD j 0 = v := by
  induction L with
  | nil => intro p _ j hj _; exact absurd hj (List.not_mem_nil j)
  | cons a L ih =>
    intro p hp j hj hjcl
    rw [show setAll v cl (a :: L) p = setAll v cl L (if a < cl then p.set a v else p) from rfl]
    have hp' : (if a < cl then p.set a v else p).length = cl := by
      split <;> simp [hp]
    by_cases hjL : j ∈ L
    · exact ih _ hp' j hjL hjcl
    · have hja : j = a := by
        rcases List.mem_cons.mp hj with h | h
        · exact h
        · exact absurd h hjL
      subst hja
      rw [setAll_getD_notmem v cl L _ j hjL, if_pos hjcl,
        List.getD_eq_getElem?_getD, List.getElem?_set_self (by omega : j < p.length)]
      rfl

theorem emphasize_length (cl : ℕ) (bs : List ℕ) : ∀ p : List ℚ,
    (emphasizeBoundaries cl bs p).length = p.length := by
  induction bs with
  | nil => intro p; rfl
  | cons b bs ih =>
    intro p
    rw [show emphasizeBoundaries cl (b :: bs) p =
      emphasizeBoundaries cl bs (if b < cl ∧ p.getD b 0 = 1/2 then p.set b (13/20) else p)
      from rfl, ih]
    split <;> simp

theorem emphasize_getD_ne (cl : ℕ) (bs : List ℕ) : ∀ (p : List ℚ) (j : ℕ),
    p.getD j 0 ≠ 1/2 → (emphasizeBoundaries cl bs p).getD j 0 = p.getD j 0 := by
  induction bs with
  | nil => intro p j _; rfl
  | cons b bs ih =>
    intro p j hj
    rw [show emphasizeBoundaries cl (b :: bs) p =
      emphasizeBoundaries cl bs (if b < cl ∧ p.getD b 0 = 1/2 then p.set b (13/20) else p)
      from rfl]
    have hqj : (if b < cl ∧ p.getD b 0 = 1/2 then p.set b (13/20) else p).getD j 0 =
        p.getD j 0 := by
      split
      · rename_i hc
        have hbj : b ≠ j := fun h => hj (h ▸ hc.2)
        rw [List.getD_eq_getElem?_getD, List.getD_eq_getElem?_getD, List.getElem?_set_ne hbj]
      · rfl
    rw [ih _ j (by rw [hqj]; exact hj), hqj]

theorem taalDef_sam_zero (name : TaalName) : (taalDef name).sam_position = 0 := by
  cases name <;> rfl

theorem buildPattern_total (name : TaalName) (cl : ℕ) (hcl : 0 < cl) :
    ∃ p, buildExpectedAccentPattern name cl = some p ∧ p.length = cl := by
  have hsam : (taalDef name).sam_position < cl := by
    rw [taalDef_sam_zero]; exact hcl
  refine ⟨emphasizeBoundaries cl (vibhagBoundaries (taalDef name).vibhags)
    (setAll (1/5) cl (taalDef name).khali_positions
      (setAll (4/5) cl (taalDef name).tali_positions
        ((List.replicate cl (1/2 : ℚ)).set (taalDef name).sam_position 1))), ?_, ?_⟩
  · simp only [buildExpectedAccentPattern, if_pos hsam]
  · rw [emphasize_length, setAll_length, setAll_length, List.length_set,
      List.length_replicate]

/-- Claim C3: for every registered taal and every positive cycle length —
also lengths smaller than the taal's `matras` — the template builder
succeeds (no out-of-range access) and returns a curve with exactly
`cycle_length` entries; positions `≥ cycle_length` in the tali, khali and
vibhag-boundary lists are clipped, and the sam position (0 for every
registered taal) is always in range. -/
theorem C3_builder_total (name : TaalName) (cl : ℕ) (hcl : 0 < cl) :
    ∃ p, buildExpectedAccentPattern name cl = some p ∧ p.length = cl :=
  buildPattern_total name cl hcl

/-- Witness for C3: Dadra at cycle length 3 (shorter than its 6 matras). -/
theorem C3_witness : ∃ p, buildExpectedAccentPattern TaalName.dadra 3 = some p ∧ p.length = 3 :=
  C3_builder_total TaalName.dadra 3 (by norm_num)

/-- Claim C1 as amended: the sam rule is applied first, so the later tali
and khali rules override it when their position lists contain
`sam_position` (khali is applied after tali and wins); the vibhag-boundary
rule never changes the value at sam because it only touches positions still
at the `0.5` baseline.  The template value at `sam_position` is therefore
`0.2` if sam is a khali position, else `0.8` if sam is a tali position,
else `1.0`. -/
theorem C1_sam_weight (name : TaalName) (cl : ℕ)
    (hsam : (taalDef name).sam_position < cl) :
    ∃ p, buildExpectedAccentPattern name cl = some p ∧
      p.getD (taalDef name).sam_position 0 =
        (if (taalDef name).sam_position ∈ (taalDef name).khali_positions then 1/5
         else if (taalDef name).sam_position ∈ (taalDef name).tali_positions then 4/5
         else 1) := by
  refine ⟨emphasizeBoundaries cl (vibhagBoundaries (taalDef name).vibhags)
    (setAll (1/5) cl (taalDef name).khali_positions
      (setAll (4/5) cl (taalDef name).tali_positions
        ((List.replicate cl (1/2 : ℚ)).set (taalDef name).sam_position 1))),
    by simp only [buildExpectedAccentPattern, if_pos hsam], ?_⟩
  set td := taalDef name with htd
  set sam := td.sam_position with hsamdef
  set p1 := (List.replicate cl (1/2 : ℚ)).set sam 1 with hp1
  set p2 := setAll (4/5) cl td.tali_positions p1 with hp2
  set p3 := setAll (1/5) cl td.khali_positions p2 with hp3
  have hlen1 : p1.length = cl := by simp [hp1]
  have hlen2 : p2.length = cl := by rw [hp2, setAll_length]; exact hlen1
  have h1 : p1.getD sam 0 = 1 := by
    rw [hp1, List.getD_eq_getElem?_getD,
      List.getElem?_set_self (by simp; omega : sam < (List.replicate cl (1/2 : ℚ)).length)]
    rfl
  have h2 : p2.getD sam 0 = if sam ∈ td.tali_positions then 4/5 else 1 := by
    split
    · rename_i h
      exact setAll_getD_mem _ _ _ p1 hlen1 sam h hsam
    · rename_i h
      rw [hp2, setAll_getD_notmem _ _ _ p1 sam h]
      exact h1
  have h3 : p3.getD sam 0 =
      (if sam ∈ td.khali_positions then 1/5
       else if sam ∈ td.tali_positions then 4/5 else 1) := by
    split
    · rename_i h
      exact setAll_getD_mem _ _ _ p2 hlen2 sam h hsam
    · rename_i h
      rw [hp3, setAll_getD_notmem _ _ _ p2 sam h]
      exact h2
  have hne : p3.getD sam 0 ≠ 1/2 := by
    rw [h3]
    split
    · norm_num
    · split <;> norm_num
  rw [emphasize_getD_ne _ _ _ _ hne]
  exact h3

/-- Counterexample to C1 as stated: for Rupak (whose khali position list
contains the sam position) the template built at its own cycle length 7
carries weight `0.2`, not `1.0`, at `sam_position` — the khali rule, applied
after the sam rule, overrides it. -/
theorem C1_counterexample :
    (buildExpectedAccentPattern TaalName.rupak 7).map (fun p => p.getD 0 0) = some (1/5) ∧
    ((1 : ℚ)/5 ≠ 1) := by
  constructor
  · norm_num [buildExpectedAccentPattern, taalDef, rupakDef, setAll, emphasizeBoundaries,
      vibhagBoundaries, vibhagBoundariesAux, List.replicate]
  · norm_num

/-- Witness for C1 (amended): at Rupak with cycle length 7 the amended rule
evaluates to the khali weight `0.2`. -/
theorem C1_witness :
    ∃ p, buildExpectedAccentPattern TaalName.rupak 7 = some p ∧
      p.getD (taalDef TaalName.rupak).sam_position 0 =
        (if (taalDef TaalName.rupak).sam_position ∈ (taalDef TaalName.rupak).khali_positions
         then 1/5
         else if (taalDef TaalName.rupak).sam_position ∈ (taalDef TaalName.rupak).tali_positions
         then 4/5
         else 1) :=
  C1_sam_weight TaalName.rupak 7 (by norm_num [taalDef, rupakDef])

/-! ## Helper lemmas for the fallback result -/

theorem taalDef_name_of_mem : ∀ td ∈ TAAL_REGISTRY, taalDef td.name = td := by
  intro td htd
  simp only [TAAL_REGISTRY, List.mem_cons, List.not_mem_nil, or_false] at htd
  rcases htd with h | h | h | h | h | h | h <;> subst h <;> rfl

theorem pythonMinBy_mem (f : TaalDefinition → ℤ) :
    ∀ (xs : List TaalDefinition) (best : TaalDefinition),
      pythonMinBy f best xs ∈ best :: xs := by
  intro xs
  induction xs with
  | nil => intro best; exact List.mem_cons_self best []
  | cons x xs ih =>
    intro best
    rw [show pythonMinBy f best (x :: xs) =
      pythonMinBy f (if f x < f best then x else best) xs from rfl]
    have h := ih (if f x < f best then x else best)
    rcases List.mem_cons.mp h with h | h
    · rw [h]
      split
      · exact List.mem_cons_of_mem best (List.mem_cons_self x xs)
      · exact List.mem_cons_self best (x :: xs)
    · exact List.mem_cons_of_mem best (List.mem_cons_of_mem x h)

theorem pythonMinBy_le (f : TaalDefinition → ℤ) :
    ∀ (xs : List TaalDefinition) (best : TaalDefinition),
      f (pythonMinBy f best xs) ≤ f best ∧
      ∀ x ∈ xs, f (pythonMinBy f best xs) ≤ f x := by
  intro xs
  induction xs with
  | nil => intro best; exact ⟨le_refl _, by intro x hx; exact absurd hx (List.not_mem_nil x)⟩
  | cons x xs ih =>
    intro best
    rw [show pythonMinBy f best (x :: xs) =
      pythonMinBy f (if f x < f best then x else best) xs from rfl]
    obtain ⟨h1, h2⟩ := ih (if f x < f best then x else best)
    have hb : f (if f x < f best then x else best) ≤ f best := by
      split
      · rename_i h; exact le_of_lt h
      · exact le_refl _
    have hx : f (if f x < f best then x else best) ≤ f x := by
      split
      · exact le_refl _
      · rename_i h; exact not_lt.mp h
    refine ⟨le_trans h1 hb, ?_⟩
    intro y hy
    rcases List.mem_cons.mp hy with h | h
    · rw [h]; exact le_trans h1 hx
    · exact h2 y h

theorem pythonMinBy_first (f : TaalDefinition → ℤ) :
    ∀ (xs : List TaalDefinition) (best : TaalDefinition),
      ∃ l1 l2, best :: xs = l1 ++ pythonMinBy f best xs :: l2 ∧
        ∀ x ∈ l1, f (pythonMinBy f best xs) < f x := by
  intro xs
  induction xs with
  | nil =>
    intro best
    exact ⟨[], [], rfl, by intro x hx; exact absurd hx (List.not_mem_nil x)⟩
  | cons x xs ih =>
    intro best
    rw [show pythonMinBy f best (x :: xs) =
      pythonMinBy f (if f x < f best then x else best) xs from rfl]
    by_cases hfx : f x < f best
    · obtain ⟨l1, l2, hdec, hlt⟩ := ih x
      rw [if_pos hfx] at *
      have hresx : f (pythonMinBy f x xs) ≤ f x := (pythonMinBy_le f xs x).1
      refine ⟨best :: l1, l2, ?_, ?_⟩
      · rw [List.cons_append, ← hdec]
      · intro y hy
        rcases List.mem_cons.mp hy with h | h
        · rw [h]; exact lt_of_le_of_lt hresx hfx
        · exact hlt y h
    · obtain ⟨l1, l2, hdec, hlt⟩ := ih best
      rw [if_neg hfx] at *
      rcases l1 with _ | ⟨c, l1'⟩
      · simp only [List.nil_append] at hdec
        have hres : pythonMinBy f best xs = best := (List.cons.injEq _ _ _ _ ▸ hdec).1.symm
        have hrest : l2 = xs := (List.cons.injEq _ _ _ _ ▸ hdec).2.symm
        exact ⟨[], x :: xs, by rw [List.nil_append, hres], by
          intro y hy; exact absurd hy (List.not_mem_nil y)⟩
      · simp only [List.cons_append, List.cons.injEq] at hdec
        obtain ⟨hc, hxs⟩ := hdec
        have hbest : f (pythonMinBy f best xs) < f best := by
          have := hlt c (List.mem_cons_self c l1')
          rw [← hc] at this
          exact this
        refine ⟨best :: x :: l1', l2, ?_, ?_⟩
        · simp only [List.cons_append, List.cons.injEq, true_and]
          exact hxs
        · intro y hy
          rcases List.mem_cons.mp hy with h | h
          · rw [h]; exact hbest
          · rcases List.mem_cons.mp h with h' | h'
            · rw [h']; exact lt_of_lt_of_le hbest (not_lt.mp hfx)
            · exact hlt y (List.mem_cons_of_mem c h')

theorem closestTaal_mem (cl : ℤ) : closestTaal cl ∈ TAAL_REGISTRY :=
  pythonMinBy_mem (fun t => |(t.matras : ℤ) - cl|) TAAL_REGISTRY.tail dadraDef

/-- The median of a single inter-onset interval is that interval. -/
theorem estimateTempo_pair (a b : ℚ) (h : a < b) : estimateTempo [a, b] = 60 / (b - a) := by
  have hba : ¬(b - a ≤ 0) := by linarith
  simp [estimateTempo, computeIoi, medianQ, sortQ, insertAsc, hba]

/-- Claim C2 as amended: the fallback's reported `cycle_duration` is
computed from the unrounded tempo estimate, so the round-trip through the
reported fields holds exactly when rounding the tempo to one decimal is
lossless (`tempo_bpm` equals the unrounded tempo); in general the
recomputation from the rounded `tempo_bpm` may differ. -/
theorem C2_fallback_round_trip (beats : List ℚ) (cl : ℤ)
    (h1 : 0 < estimateTempo beats)
    (h2 : roundTo 1 (estimateTempo beats) = estimateTempo beats) :
    roundTo 4 (60 / (buildFallbackResult beats cl).tempo_bpm *
      ((taalDef (buildFallbackResult beats cl).taal).matras : ℚ)) =
    (buildFallbackResult beats cl).cycle_duration := by
  simp only [buildFallbackResult]
  rw [h2, if_pos h1, taalDef_name_of_mem _ (closestTaal_mem cl)]

/-- Witness for C2 (amended): beats at 0 s and 0.5 s give the exact tempo
120 BPM, which survives the one-decimal rounding, and the round-trip
recomputes the reported `cycle_duration`. -/
theorem C2_witness :
    roundTo 4 (60 / (buildFallbackResult [0, 1/2] 0).tempo_bpm *
      ((taalDef (buildFallbackResult [0, 1/2] 0).taal).matras : ℚ)) =
    (buildFallbackResult [0, 1/2] 0).cycle_duration := by
  have ht : estimateTempo [0, 1/2] = 120 := by
    rw [estimateTempo_pair 0 (1/2) (by norm_num)]
    norm_num
  refine C2_fallback_round_trip [0, 1/2] 0 (by rw [ht]; norm_num) ?_
  rw [ht]
  norm_num [roundTo, round_eq]

/-- Counterexample to C2 as stated: beats at 0 s and 0.7 s give tempo
`600/7 ≈ 85.714` BPM, reported as `85.7`; the reported `cycle_duration` is
`4.2` (from the unrounded tempo), but recomputing `60 / 85.7 × 6` and
rounding to four decimals gives `4.2007`. -/
theorem C2_counterexample :
    roundTo 4 (60 / (buildFallbackResult [0, 7/10] 0).tempo_bpm *
      ((taalDef (buildFallbackResult [0, 7/10] 0).taal).matras : ℚ)) ≠
    (buildFallbackResult [0, 7/10] 0).cycle_duration := by
  have ht : estimateTempo [0, 7/10] = 600/7 := by
    rw [estimateTempo_pair 0 (7/10) (by norm_num)]
    norm_num
  have hclosest : closestTaal 0 = dadraDef := by
    norm_num [closestTaal, pythonMinBy, TAAL_REGISTRY, dadraDef, rupakDef, keherwaDef,
      jhaptaalDef, ektaalDef, deepchandiDef, teentaalDef]
  simp only [buildFallbackResult, ht, hclosest]
  have hbpm : roundTo 1 ((600 : ℚ)/7) = 857/10 := by
    norm_num [roundTo, round_eq]
  rw [hbpm]
  norm_num [taalDef, dadraDef, roundTo, round_eq]

/-! ## Helper lemmas for the pattern matcher -/

theorem registry_sam_zero : ∀ td ∈ TAAL_REGISTRY, td.sam_position = 0 := by
  intro td htd
  simp only [TAAL_REGISTRY, List.mem_cons, List.not_mem_nil, or_false] at htd
  rcases htd with h | h | h | h | h | h | h <;> subst h <;> rfl

theorem registry_matras_pos : ∀ td ∈ TAAL_REGISTRY, 0 < td.matras := by
  intro td htd
  simp only [TAAL_REGISTRY, List.mem_cons, List.not_mem_nil, or_false] at htd
  rcases htd with h | h | h | h | h | h | h <;> subst h <;> norm_num [dadraDef, rupakDef,
    keherwaDef, jhaptaalDef, ektaalDef, deepchandiDef, teentaalDef]

theorem mem_getTaalsByMatras {td : TaalDefinition} {cl : ℤ}
    (h : td ∈ getTaalsByMatras cl) : td ∈ TAAL_REGISTRY ∧ (td.matras : ℤ) = cl := by
  obtain ⟨hmem, hp⟩ := List.mem_filter.mp h
  exact ⟨hmem, by simpa using hp⟩

theorem averageCyclicPatternZ_some (s : List ℚ) (cl : ℤ) (h : 0 ≤ cl) :
    ∃ a, averageCyclicPatternZ s cl = some a := by
  simp only [averageCyclicPatternZ]
  split_ifs with h1 h2 h3
  · omega
  · exact ⟨_, rfl⟩
  · exact ⟨_, rfl⟩
  · exact ⟨_, rfl⟩

theorem listMapM_eq_map (f : TaalDefinition → Option (TaalName × ℝ))
    (g : TaalDefinition → TaalName × ℝ) :
    ∀ l : List TaalDefinition, (∀ a ∈ l, f a = some (g a)) →
      listMapM f l = some (l.map g) := by
  intro l
  induction l with
  | nil => intro _; rfl
  | cons a l ih =>
    intro h
    simp only [listMapM, h a (List.mem_cons_self a l),
      ih (fun b hb => h b (List.mem_cons_of_mem a hb)), Option.bind_some, List.map_cons]
    rfl

theorem matchAccentPattern_empty (obs : List ℚ) (cl : ℤ) (h : getTaalsByMatras cl = []) :
    matchAccentPattern obs cl = some [] := by
  simp [matchAccentPattern, h]

theorem matchAccentPattern_char (obs : List ℚ) (cl : ℤ) (h : getTaalsByMatras cl ≠ []) :
    matchAccentPattern obs cl = some (sortPairsDesc ((getTaalsByMatras cl).map
      fun td => (td.name, taalConfidence obs cl td))) := by
  have hcl : 0 < cl := by
    rcases hx : getTaalsByMatras cl with _ | ⟨td, rest⟩
    · exact absurd hx h
    · have htd := mem_getTaalsByMatras (hx ▸ List.mem_cons_self td rest)
      have := registry_matras_pos td htd.1
      omega
  have hbody : ∀ td ∈ getTaalsByMatras cl,
      (do
        let expected ← buildExpectedAccentPattern td.name cl.toNat
        let avg ← averageCyclicPatternZ obs cl
        let obsNorm := normalizeR (avg.map fun q => (q : ℝ))
        let expNorm := normalizeR (expected.map fun q => (q : ℝ))
        pure (td.name, max 0 (min 1 (dotR obsNorm expNorm)))) =
      some (td.name, taalConfidence obs cl td) := by
    intro td htd
    obtain ⟨e, he, _⟩ := buildPattern_total td.name cl.toNat (by omega)
    obtain ⟨a, ha⟩ := averageCyclicPatternZ_some obs cl (le_of_lt hcl)
    rw [he, ha]
    simp only [Option.bind_some, taalConfidence, he, ha, Option.getD_some]
    rfl
  simp only [matchAccentPattern, if_neg h]
  rw [listMapM_eq_map _ _ _ hbody]
  rfl

theorem matchAccentPattern_some (obs : List ℚ) (cl : ℤ) :
    matchAccentPattern obs cl = some (matchRankings obs cl) := by
  by_cases h : getTaalsByMatras cl = []
  · rw [matchAccentPattern_empty obs cl h, matchRankings, matchAccentPattern_empty obs cl h]
    rfl
  · rw [matchAccentPattern_char obs cl h, matchRankings, matchAccentPattern_char obs cl h]
    rfl

theorem taalConfidence_nonneg (obs : List ℚ) (cl : ℤ) (td : TaalDefinition) :
    0 ≤ taalConfidence obs cl td := le_max_left 0 _

theorem taalConfidence_le_one (obs : List ℚ) (cl : ℤ) (td : TaalDefinition) :
    taalConfidence obs cl td ≤ 1 :=
  max_le (by norm_num) (min_le_left 1 _)

/-! ## Sortedness and permutation facts for the descending sort -/

theorem insertPairDesc_perm (x : TaalName × ℝ) :
    ∀ l : List (TaalName × ℝ), (insertPairDesc x l).Perm (x :: l) := by
  intro l
  induction l with
  | nil => exact List.Perm.refl _
  | cons y ys ih =>
    by_cases h : y.2 ≤ x.2
    · rw [show insertPairDesc x (y :: ys) = if y.2 ≤ x.2 then x :: y :: ys
        else y :: insertPairDesc x ys from rfl, if_pos h]
    · rw [show insertPairDesc x (y :: ys) = if y.2 ≤ x.2 then x :: y :: ys
        else y :: insertPairDesc x ys from rfl, if_neg h]
      exact (ih.cons y).trans (List.Perm.swap x y ys)

theorem sortPairsDesc_perm (l : List (TaalName × ℝ)) : (sortPairsDesc l).Perm l := by
  induction l with
  | nil => exact List.Perm.refl _
  | cons x xs ih =>
    exact (insertPairDesc_perm x (sortPairsDesc xs)).trans (ih.cons x)

theorem insertPairDesc_sorted (x : TaalName × ℝ) :
    ∀ l : List (TaalName × ℝ), l.Pairwise (fun a b => b.2 ≤ a.2) →
      (insertPairDesc x l).Pairwise (fun a b => b.2 ≤ a.2) := by
  intro l
  induction l with
  | nil => intro _; exact List.pairwise_singleton _ x
  | cons y ys ih =>
    intro h
    obtain ⟨hy, hys⟩ := List.pairwise_cons.mp h
    by_cases hle : y.2 ≤ x.2
    · rw [show insertPairDesc x (y :: ys) = if y.2 ≤ x.2 then x :: y :: ys
        else y :: insertPairDesc x ys from rfl, if_pos hle]
      refine List.pairwise_cons.mpr ⟨?_, h⟩
      intro z hz
      rcases List.mem_cons.mp hz with hzy | hzys
      · rw [hzy]; exact hle
      · exact le_trans (hy z hzys) hle
    · rw [show insertPairDesc x (y :: ys) = if y.2 ≤ x.2 then x :: y :: ys
        else y :: insertPairDesc x ys from rfl, if_neg hle]
      refine List.pairwise_cons.mpr ⟨?_, ih hys⟩
      intro z hz
      rcases List.mem_cons.mp ((insertPairDesc_perm x ys).mem_iff.mp hz) with hzx | hzys
      · rw [hzx]; exact le_of_lt (not_le.mp hle)
      · exact hy z hzys

theorem sortPairsDesc_sorted (l : List (TaalName × ℝ)) :
    (sortPairsDesc l).Pairwise (fun a b => b.2 ≤ a.2) := by
  induction l with
  | nil => exact List.Pairwise.nil
  | cons x xs ih => exact insertPairDesc_sorted x (sortPairsDesc xs) ih

/-! ## Ranking invariants -/

theorem matchRankings_sorted (obs : List ℚ) (cl : ℤ) :
    (matchRankings obs cl).Pairwise (fun a b => b.2 ≤ a.2) := by
  by_cases h : getTaalsByMatras cl = []
  · rw [matchRankings, matchAccentPattern_empty obs cl h]
    exact List.Pairwise.nil
  · rw [matchRankings, matchAccentPattern_char obs cl h]
    exact sortPairsDesc_sorted _

theorem matchRankings_mem (obs : List ℚ) (cl : ℤ) {p : TaalName × ℝ}
    (hp : p ∈ matchRankings obs cl) :
    ∃ td ∈ getTaalsByMatras cl, p = (td.name, taalConfidence obs cl td) := by
  by_cases h : getTaalsByMatras cl = []
  · rw [matchRankings, matchAccentPattern_empty obs cl h] at hp
    exact absurd hp (List.not_mem_nil p)
  · rw [matchRankings, matchAccentPattern_char obs cl h, Option.getD_some] at hp
    obtain ⟨td, htd, heq⟩ := List.mem_map.mp ((sortPairsDesc_perm _).mem_iff.mp hp)
    exact ⟨td, htd, heq.symm⟩

theorem matchRankings_bounds (obs : List ℚ) (cl : ℤ) {p : TaalName × ℝ}
    (hp : p ∈ matchRankings obs cl) : 0 ≤ p.2 ∧ p.2 ≤ 1 := by
  obtain ⟨td, _, heq⟩ := matchRankings_mem obs cl hp
  rw [heq]
  exact ⟨taalConfidence_nonneg obs cl td, taalConfidence_le_one obs cl td⟩

theorem matchRankings_matras (obs : List ℚ) (cl : ℤ) {p : TaalName × ℝ}
    (hp : p ∈ matchRankings obs cl) : ((taalDef p.1).matras : ℤ) = cl := by
  obtain ⟨td, htd, heq⟩ := matchRankings_mem obs cl hp
  obtain ⟨hreg, hmatras⟩ := mem_getTaalsByMatras htd
  rw [heq]
  simpa [taalDef_name_of_mem td hreg] using hmatras

theorem registry_names_nodup : (TAAL_REGISTRY.map TaalDefinition.name).Nodup := by
  simp [TAAL_REGISTRY, dadraDef, rupakDef, keherwaDef, jhaptaalDef, ektaalDef,
    deepchandiDef, teentaalDef]

theorem matchRankings_names_nodup (obs : List ℚ) (cl : ℤ) :
    ((matchRankings obs cl).map Prod.fst).Nodup := by
  by_cases h : getTaalsByMatras cl = []
  · rw [matchRankings, matchAccentPattern_empty obs cl h]
    exact List.nodup_nil
  · rw [matchRankings, matchAccentPattern_char obs cl h, Option.getD_some]
    have hperm : ((sortPairsDesc ((getTaalsByMatras cl).map
        fun td => (td.name, taalConfidence obs cl td))).map Prod.fst).Perm
        (((getTaalsByMatras cl).map
          fun td => (td.name, taalConfidence obs cl td)).map Prod.fst) :=
      (sortPairsDesc_perm _).map Prod.fst
    have hnodup : (((getTaalsByMatras cl).map
        fun td => (td.name, taalConfidence obs cl td)).map Prod.fst).Nodup := by
      rw [List.map_map]
      have hsub : ((getTaalsByMatras cl).map TaalDefinition.name).Sublist
          (TAAL_REGISTRY.map TaalDefinition.name) :=
        (List.filter_sublist TAAL_REGISTRY).map TaalDefinition.name
      exact hsub.nodup registry_names_nodup
    exact hperm.symm.nodup hnodup

/-! ## Helper lemmas for the retry controller -/

theorem collectNearby_char (obs : List ℚ) (cl : ℤ) : ∀ os : List ℤ,
    collectNearby obs cl os = some (os.foldr (fun o acc =>
      if 0 < cl + o then
        (matchRankings obs (cl + o)).map (fun p => (p.1, p.2 * (4/5 : ℝ))) ++ acc
      else acc) []) := by
  intro os
  induction os with
  | nil => rfl
  | cons o os ih =>
    by_cases h : 0 < cl + o
    · simp only [collectNearby, if_pos h, matchAccentPattern_some, ih, List.foldr_cons,
        if_pos h]
      rfl
    · simp only [collectNearby, if_neg h, ih, List.foldr_cons, if_neg h]

theorem tryNearby_char (obs : List ℚ) (cl : ℤ) :
    tryNearbyCycleLengths obs cl = some (sortPairsDesc (([-1, 1, -2, 2] : List ℤ).foldr
      (fun o acc => if 0 < cl + o then
        (matchRankings obs (cl + o)).map (fun p => (p.1, p.2 * (4/5 : ℝ))) ++ acc
      else acc) [])) := by
  rw [tryNearbyCycleLengths, collectNearby_char]
  rfl

theorem mem_nearby_foldr (obs : List ℚ) (cl : ℤ) : ∀ (os : List ℤ) (p : TaalName × ℝ),
    p ∈ os.foldr (fun o acc => if 0 < cl + o then
      (matchRankings obs (cl + o)).map (fun p => (p.1, p.2 * (4/5 : ℝ))) ++ acc
    else acc) [] →
    ∃ o ∈ os, 0 < cl + o ∧ ∃ q ∈ matchRankings obs (cl + o), p = (q.1, q.2 * (4/5 : ℝ)) := by
  intro os
  induction os with
  | nil => intro p hp; exact absurd hp (List.not_mem_nil p)
  | cons o os ih =>
    intro p hp
    rw [List.foldr_cons] at hp
    by_cases h : 0 < cl + o
    · rw [if_pos h] at hp
      rcases List.mem_append.mp hp with hmem | hmem
      · obtain ⟨q, hq, hpq⟩ := List.mem_map.mp hmem
        exact ⟨o, List.mem_cons_self o os, h, q, hq, hpq.symm⟩
      · obtain ⟨o', ho', hpos, q, hq, hpq⟩ := ih p hmem
        exact ⟨o', List.mem_cons_of_mem o ho', hpos, q, hq, hpq⟩
    · rw [if_neg h] at hp
      obtain ⟨o', ho', hpos, q, hq, hpq⟩ := ih p hp
      exact ⟨o', List.mem_cons_of_mem o ho', hpos, q, hq, hpq⟩

theorem nearby_foldr_names_nodup (obs : List ℚ) (cl : ℤ) : ∀ os : List ℤ, os.Nodup →
    (((os.foldr (fun o acc => if 0 < cl + o then
      (matchRankings obs (cl + o)).map (fun p => (p.1, p.2 * (4/5 : ℝ))) ++ acc
    else acc) []).map Prod.fst)).Nodup := by
  intro os
  induction os with
  | nil => intro _; exact List.nodup_nil
  | cons o os ih =>
    intro hnd
    obtain ⟨hno, hnd'⟩ := List.nodup_cons.mp hnd
    rw [List.foldr_cons]
    by_cases h : 0 < cl + o
    · rw [if_pos h, List.map_append]
      rw [List.nodup_append]
      refine ⟨?_, ih hnd', ?_⟩
      · rw [List.map_map]
        exact matchRankings_names_nodup obs (cl + o)
      · intro n hn1 hn2
        obtain ⟨p1, hp1, hn1'⟩ := List.mem_map.mp hn1
        obtain ⟨q1, hq1, hpq1⟩ := List.mem_map.mp hp1
        obtain ⟨p2, hp2, hn2'⟩ := List.mem_map.mp hn2
        obtain ⟨o', ho', _, q2, hq2, hpq2⟩ := mem_nearby_foldr obs cl os p2 hp2
        have hm1 : ((taalDef n).matras : ℤ) = cl + o := by
          have := matchRankings_matras obs (cl + o) hq1
          rw [← hn1', ← hpq1] at *
          exact this
        have hm2 : ((taalDef n).matras : ℤ) = cl + o' := by
          have := matchRankings_matras obs (cl + o') hq2
          rw [← hn2', hpq2] at *
          exact this
        have : o = o' := by omega
        exact hno (this ▸ ho')
    · rw [if_neg h]
      exact ih hnd'

/-- Claim C4: when the matcher returns an empty ranking at the estimated
cycle length, the retry controller produces exactly the descending-sorted
merge over the offsets `-1, +1, -2, +2` visited in that order with
non-positive candidate lengths skipped, and every returned pair carries
confidence exactly `0.8 ×` the confidence the same taal scores from the
matcher at its own matching cycle length. -/
theorem C4_retry_offsets (obs : List ℚ) (cl : ℤ)
    (h : matchAccentPattern obs cl = some []) :
    ∃ rs, tryNearbyCycleLengths obs cl = some rs ∧
      rs = sortPairsDesc (([-1, 1, -2, 2] : List ℤ).foldr (fun o acc =>
        if 0 < cl + o then
          (matchRankings obs (cl + o)).map (fun p => (p.1, p.2 * (4/5 : ℝ))) ++ acc
        else acc) []) ∧
      rs.Pairwise (fun a b => b.2 ≤ a.2) ∧
      ∀ p ∈ rs, ∃ c, (p.1, c) ∈ matchRankings obs ((taalDef p.1).matras : ℤ) ∧
        p.2 = c * (4/5 : ℝ) := by
  refine ⟨_, tryNearby_char obs cl, rfl, sortPairsDesc_sorted _, ?_⟩
  intro p hp
  have hp' := (sortPairsDesc_perm _).mem_iff.mp hp
  obtain ⟨o, _, _, q, hq, hpq⟩ := mem_nearby_foldr obs cl [-1, 1, -2, 2] p hp'
  have hm : ((taalDef q.1).matras : ℤ) = cl + o := matchRankings_matras obs (cl + o) hq
  refine ⟨q.2, ?_, by rw [hpq]⟩
  rw [hpq]
  simp only
  rw [hm]
  exact hq

/-- Witness for C4: with no observations and estimated cycle length 0 the
matcher is empty (no taal has 0 matras), offsets `-1` and `-2` are skipped
as non-positive, lengths 1 and 2 have no candidates either, and the merged
retry ranking is empty. -/
theorem C4_witness :
    ∃ rs, tryNearbyCycleLengths [] 0 = some rs ∧
      rs = sortPairsDesc (([-1, 1, -2, 2] : List ℤ).foldr (fun o acc =>
        if 0 < (0 : ℤ) + o then
          (matchRankings [] ((0 : ℤ) + o)).map (fun p => (p.1, p.2 * (4/5 : ℝ))) ++ acc
        else acc) []) ∧
      rs.Pairwise (fun a b => b.2 ≤ a.2) ∧
      ∀ p ∈ rs, ∃ c, (p.1, c) ∈ matchRankings [] ((taalDef p.1).matras : ℤ) ∧
        p.2 = c * (4/5 : ℝ) :=
  C4_retry_offsets [] 0 (matchAccentPattern_empty [] 0 (by decide))

/-! ## The terminal fallback path -/

theorem pipelineRankings_of_empty (obs : List ℚ) (cl : ℤ)
    (h1 : matchAccentPattern obs cl = some [])
    (h2 : tryNearbyCycleLengths obs cl = some []) :
    pipelineRankings obs cl = some [] := by
  rw [pipelineRankings, h1]
  simpa using h2

/-- Claim C7: when the exact-length match and all retry offsets yield
nothing, the pipeline returns the terminal fallback: its taal is the
registered taal whose `matras` is numerically closest to the estimated
cycle length with ties broken by registry iteration order (no
strictly-closer taal exists, and every registry entry before the chosen one
is strictly farther), its confidence is exactly `0.1`, and its beat list
and alternatives list are empty. -/
theorem C7_terminal_fallback (beats : List ℚ) (positions : List ℕ) (obs : List ℚ)
    (h1 : matchAccentPattern obs (estimateCycleLength positions : ℤ) = some [])
    (h2 : tryNearbyCycleLengths obs (estimateCycleLength positions : ℤ) = some []) :
    detectTaalCore beats positions obs =
      some (buildFallbackResult beats (estimateCycleLength positions : ℤ)) ∧
    (buildFallbackResult beats (estimateCycleLength positions : ℤ)).confidence = (1/10 : ℝ) ∧
    (buildFallbackResult beats (estimateCycleLength positions : ℤ)).beats = [] ∧
    (buildFallbackResult beats (estimateCycleLength positions : ℤ)).alternative_taals = [] ∧
    (buildFallbackResult beats (estimateCycleLength positions : ℤ)).taal =
      (closestTaal (estimateCycleLength positions : ℤ)).name ∧
    (∀ td ∈ TAAL_REGISTRY,
      |((closestTaal (estimateCycleLength positions : ℤ)).matras : ℤ) -
        (estimateCycleLength positions : ℤ)| ≤
      |(td.matras : ℤ) - (estimateCycleLength positions : ℤ)|) ∧
    (∃ l1 l2, TAAL_REGISTRY = l1 ++ closestTaal (estimateCycleLength positions : ℤ) :: l2 ∧
      ∀ td ∈ l1,
        |((closestTaal (estimateCycleLength positions : ℤ)).matras : ℤ) -
          (estimateCycleLength positions : ℤ)| <
        |(td.matras : ℤ) - (estimateCycleLength positions : ℤ)|) := by
  set cl : ℤ := (estimateCycleLength positions : ℤ) with hcl
  have hpipe : pipelineRankings obs cl = some [] := pipelineRankings_of_empty obs cl h1 h2
  refine ⟨?_, rfl, rfl, rfl, rfl, ?_, ?_⟩
  · rw [detectTaalCore, ← hcl, hpipe]
    rfl
  · intro td htd
    have hle := pythonMinBy_le (fun t => |(t.matras : ℤ) - cl|) TAAL_REGISTRY.tail dadraDef
    have hreg : td ∈ dadraDef :: TAAL_REGISTRY.tail := htd
    rcases List.mem_cons.mp hreg with h | h
    · subst h
      exact hle.1
    · exact hle.2 td h
  · obtain ⟨l1, l2, hdec, hlt⟩ :=
      pythonMinBy_first (fun t => |(t.matras : ℤ) - cl|) TAAL_REGISTRY.tail dadraDef
    exact ⟨l1, l2, hdec, hlt⟩

/-- Witness for C7: empty beat, downbeat and strength streams give the
estimated cycle length 0, no candidates anywhere, and hence the fallback
result (whose closest taal is Dadra with 6 matras). -/
theorem C7_witness :
    detectTaalCore [] [] [] = some (buildFallbackResult [] (estimateCycleLength [] : ℤ)) ∧
    (buildFallbackResult [] (estimateCycleLength [] : ℤ)).confidence = (1/10 : ℝ) ∧
    (buildFallbackResult [] (estimateCycleLength [] : ℤ)).beats = [] ∧
    (buildFallbackResult [] (estimateCycleLength [] : ℤ)).alternative_taals = [] ∧
    (buildFallbackResult [] (estimateCycleLength [] : ℤ)).taal =
      (closestTaal (estimateCycleLength [] : ℤ)).name ∧
    (∀ td ∈ TAAL_REGISTRY,
      |((closestTaal (estimateCycleLength [] : ℤ)).matras : ℤ) -
        (estimateCycleLength [] : ℤ)| ≤
      |(td.matras : ℤ) - (estimateCycleLength [] : ℤ)|) ∧
    (∃ l1 l2, TAAL_REGISTRY = l1 ++ closestTaal (estimateCycleLength [] : ℤ) :: l2 ∧
      ∀ td ∈ l1,
        |((closestTaal (estimateCycleLength [] : ℤ)).matras : ℤ) -
          (estimateCycleLength [] : ℤ)| <
        |(td.matras : ℤ) - (estimateCycleLength [] : ℤ)|) := by
  have h1 : matchAccentPattern [] (estimateCycleLength [] : ℤ) = some [] :=
    matchAccentPattern_empty [] 0 (by decide)
  have h2 : tryNearbyCycleLengths [] (estimateCycleLength [] : ℤ) = some [] := by
    have e1 : matchRankings [] 1 = [] := by
      rw [matchRankings, matchAccentPattern_empty [] 1 (by decide)]
      rfl
    have e2 : matchRankings [] 2 = [] := by
      rw [matchRankings, matchAccentPattern_empty [] 2 (by decide)]
      rfl
    rw [show (estimateCycleLength [] : ℤ) = 0 from rfl, tryNearby_char]
    simp only [List.foldr_cons, List.foldr_nil]
    rw [if_neg (by norm_num), if_pos (by norm_num), if_neg (by norm_num),
      if_pos (by norm_num)]
    rw [show (0 : ℤ) + 1 = 1 from rfl, show (0 : ℤ) + 2 = 2 from rfl, e1, e2]
    rfl
  exact C7_terminal_fallback [] [] [] h1 h2

/-! ## Ranking invariants through the pipeline -/

theorem pipelineRankings_char (obs : List ℚ) (cl : ℤ) :
    ∃ rs, pipelineRankings obs cl = some rs ∧
      rs.Pairwise (fun a b => b.2 ≤ a.2) ∧ (rs.map Prod.fst).Nodup := by
  rw [pipelineRankings, matchAccentPattern_some]
  by_cases h : matchRankings obs cl = []
  · refine ⟨sortPairsDesc (([-1, 1, -2, 2] : List ℤ).foldr (fun o acc =>
      if 0 < cl + o then
        (matchRankings obs (cl + o)).map (fun p => (p.1, p.2 * (4/5 : ℝ))) ++ acc
      else acc) []), ?_, sortPairsDesc_sorted _, ?_⟩
    · simp only [Option.some_bind, if_pos h]
      exact tryNearby_char obs cl
    · refine (((sortPairsDesc_perm _).map Prod.fst).symm).nodup ?_
      exact nearby_foldr_names_nodup obs cl [-1, 1, -2, 2] (by decide)
  · refine ⟨matchRankings obs cl, ?_, matchRankings_sorted obs cl,
      matchRankings_names_nodup obs cl⟩
    simp only [Option.some_bind, if_neg h]

/-- Claim C9: every ranking the matcher returns is sorted by non-increasing
confidence with every confidence clamped into `[0, 1]`; and in every
non-fallback detection result (the pipeline rankings are non-empty) the
`alternative_taals` list strictly excludes the best-match taal and is
sorted by descending confidence. -/
theorem C9_ranking_invariants :
    (∀ (obs : List ℚ) (cl : ℤ) (r : List (TaalName × ℝ)),
      matchAccentPattern obs cl = some r →
      r.Pairwise (fun a b => b.2 ≤ a.2) ∧ ∀ p ∈ r, 0 ≤ p.2 ∧ p.2 ≤ 1) ∧
    (∀ (beats : List ℚ) (positions : List ℕ) (obs : List ℚ) (res : TaalDetectionResult),
      detectTaalCore beats positions obs = some res →
      pipelineRankings obs (estimateCycleLength positions : ℤ) ≠ some [] →
      res.taal ∉ res.alternative_taals.map Prod.fst ∧
      res.alternative_taals.Pairwise (fun a b => b.2 ≤ a.2)) := by
  constructor
  · intro obs cl r hr
    rw [matchAccentPattern_some] at hr
    have hr' : r = matchRankings obs cl := (Option.some.injEq _ _ ▸ hr).symm
    subst hr'
    exact ⟨matchRankings_sorted obs cl, fun p hp => matchRankings_bounds obs cl hp⟩
  · intro beats positions obs res hdet hne
    obtain ⟨rs, hrs, hsorted, hnodup⟩ :=
      pipelineRankings_char obs (estimateCycleLength positions : ℤ)
    rw [detectTaalCore, hrs, Option.map_some'] at hdet
    have hres := (Option.some.injEq _ _ ▸ hdet)
    rcases rs with _ | ⟨⟨bn, bc⟩, alts⟩
    · exact absurd hrs hne
    · have htaal : res.taal = bn := by rw [← hres]
      have halts : res.alternative_taals = alts := by rw [← hres]
      rw [htaal, halts]
      rw [List.map_cons] at hnodup
      constructor
      · exact (List.nodup_cons.mp hnodup).1
      · exact (List.pairwise_cons.mp hsorted).2

/-- The dot product with a zero vector on the left vanishes. -/
theorem dotR_replicate_zero (n : ℕ) : ∀ v : List ℝ, dotR (List.replicate n 0) v = 0 := by
  induction n with
  | zero => intro v; simp [dotR]
  | succ n ih =>
    intro v
    rcases v with _ | ⟨x, xs⟩
    · simp [dotR]
    · rw [List.replicate_succ]
      simpa [dotR] using ih xs

theorem normalizeR_zero (n : ℕ) : normalizeR (List.replicate n (0 : ℝ)) = List.replicate n 0 := by
  simp [normalizeR]

theorem taalConfidence_empty_obs : taalConfidence [] 6 dadraDef = 0 := by
  rw [taalConfidence]
  rw [show averageCyclicPatternZ [] 6 = some (List.replicate 6 0) from rfl, Option.getD_some]
  rw [show (List.replicate 6 (0:ℚ)).map (fun q => (q : ℝ)) = List.replicate 6 (0:ℝ) by
    simp [List.map_replicate]]
  rw [normalizeR_zero, dotR_replicate_zero]
  norm_num

theorem matchAccentPattern_six : matchAccentPattern [] 6 = some [(TaalName.dadra, 0)] := by
  have h6 : getTaalsByMatras 6 = [dadraDef] := by decide
  rw [matchAccentPattern_char [] 6 (by rw [h6]; simp), h6]
  simp only [List.map_cons, List.map_nil, taalConfidence_empty_obs]
  rfl

theorem pipelineRankings_six : pipelineRankings [] 6 = some [(TaalName.dadra, 0)] := by
  rw [pipelineRankings, matchAccentPattern_six]
  simp

/-- Witness for C9: the matcher invariant at an empty ranking, and the
exclusion invariant on a concrete non-fallback run (two full Dadra cycles
of downbeat positions, empty beat and strength streams; the single-entry
ranking names Dadra with no alternatives). -/
theorem C9_witness :
    (∃ r, matchAccentPattern [] 0 = some r ∧ List.Pairwise
      (fun a b : TaalName × ℝ => b.2 ≤ a.2) r ∧ ∀ p ∈ r, 0 ≤ p.2 ∧ p.2 ≤ 1) ∧
    (∃ res, detectTaalCore [] (List.range 6 ++ List.range 6) [] = some res ∧
      res.taal ∉ res.alternative_taals.map Prod.fst ∧
      res.alternative_taals.Pairwise (fun a b : TaalName × ℝ => b.2 ≤ a.2)) := by
  constructor
  · have h0 : matchAccentPattern [] 0 = some [] := matchAccentPattern_empty [] 0 (by decide)
    obtain ⟨hs, hb⟩ := C9_ranking_invariants.1 [] 0 [] h0
    exact ⟨[], h0, hs, hb⟩
  · have hcl : ((estimateCycleLength (List.range 6 ++ List.range 6) : ℕ) : ℤ) = 6 := by
      rw [show estimateCycleLength (List.range 6 ++ List.range 6) = 6 from by decide]
      rfl
    have hpipe : pipelineRankings [] ((estimateCycleLength
        (List.range 6 ++ List.range 6) : ℕ) : ℤ) = some [(TaalName.dadra, 0)] := by
      rw [hcl]
      exact pipelineRankings_six
    have hdet : detectTaalCore [] (List.range 6 ++ List.range 6) [] ≠ none := by
      rw [detectTaalCore, hpipe]
      simp
    obtain ⟨res, hres⟩ := Option.ne_none_iff_exists'.mp hdet
    obtain ⟨hex, hsort⟩ := C9_ranking_invariants.2 [] (List.range 6 ++ List.range 6) [] res
      hres (by rw [hpipe]; simp)
    exact ⟨res, hres, hex, hsort⟩

end TaalFinder
